import Mathlib

/-!
# Verification of `adjustOklchLightness` (src/public/asset/js/color-palette.js)

Shallow embedding of the single function of this repository.

Modelling decisions, recorded once here:

* The browser environment access
  `getComputedStyle(document.documentElement).getPropertyValue(cssVariableName)`
  is an external lookup returning a string (possibly empty).  The embedding
  takes that resolved string directly as the `oklchRaw` parameter of
  `adjustOklchLightness`; the `console.error` diagnostic is a side effect
  outside the return value and is not modelled.
* JavaScript numbers are modelled as `Option ℚ`: `none` is `NaN`, `some q`
  is the numeric value with exact rational arithmetic (binary64 rounding,
  overflow and infinities are idealized away).  A separate `round64`
  function models IEEE-754 binary64 round-to-nearest-even for normal-range
  values and is used to evaluate one concrete floating-point chain.
* The regex `/oklch\(\s*([\d.]+)\s+([\d.]+)\s+([\d.]+)\s*\)/` is unanchored
  and is applied with `String.prototype.match`, which returns the leftmost
  match.  Since the character classes `[\d.]`, `\s` and the literals are
  pairwise disjoint, greedy backtracking matching coincides with the
  deterministic maximal-munch scanner `matchOklchAt` below, tried at every
  start position by `findOklch` (leftmost first).
* `parseFloat` is only ever applied to captures of `[\d.]+` (digits and
  dots, no sign, no exponent, no `Infinity`); `jsParseFloatL` models
  `parseFloat` faithfully on exactly that fragment: longest valid decimal
  prefix `digits [ . digits ]`, `NaN` when no digit occurs in it.
* `toFixed(4)` follows the ECMAScript algorithm for values below `10^21`:
  the sign is split off and the magnitude is rounded to the integer `n`
  minimising `|n / 10^4 - x|`, ties towards the larger `n` (half-up).
* JS whitespace (`\s`, `trim`) is modelled by the ASCII whitespace
  characters (space, tab, line feed, vertical tab, form feed, carriage
  return) plus no-break space; the exotic Unicode space characters are
  immaterial to every claim.
-/

set_option maxRecDepth 8000

set_option allowUnsafeReducibility true

/- Mathlib marks the core `Rat` arithmetic operations `[irreducible]`, which
blocks elaborator-side evaluation in `decide`; restore the default
transparency so concrete instances evaluate.  Kernel checking is unaffected. -/
attribute [local semireducible] Rat.add Rat.sub Rat.mul Rat.inv

/-- JS number: `none` is `NaN`, `some q` a (finite) numeric value. -/
abbrev JsNum := Option ℚ

/-- Model of the JS whitespace class `\s` (restricted to the listed characters):
space, tab, line feed, vertical tab, form feed, carriage return, no-break space. -/
def isWs (c : Char) : Bool :=
  c.toNat == 32 || c.toNat == 9 || c.toNat == 10 || c.toNat == 11 ||
    c.toNat == 12 || c.toNat == 13 || c.toNat == 160

/-- The regex class `\d` (and the digits accepted by `parseFloat`): `0`-`9`. -/
def isDigitC (c : Char) : Bool :=
  48 <= c.toNat && c.toNat <= 57

/-- The regex character class `[\d.]`: a decimal digit or a dot. -/
def isDigitDot (c : Char) : Bool :=
  isDigitC c || c.toNat == 46

/-- Numeric value of a digit character. -/
def dval (c : Char) : ℕ := c.toNat - 48

/-- Value of a digit string, most significant digit first. -/
def natValN (cs : List Char) : ℕ :=
  cs.foldl (fun a c => 10 * a + dval c) 0

/-- The decimal digit character for `d < 10`. -/
def digitChar (d : ℕ) : Char := Char.ofNat (48 + d)

/-- Decimal digits of `n`, most significant first; `fuel`-bounded recursion. -/
def natStrAux : ℕ → ℕ → List Char
  | 0, _ => []
  | fuel + 1, n =>
    if n < 10 then [digitChar n] else natStrAux fuel (n / 10) ++ [digitChar (n % 10)]

/-- Decimal rendering of a natural number (model of JS `ToString` on small naturals). -/
def natStr (n : ℕ) : List Char := natStrAux (n + 1) n

/-- Exactly four decimal digits of `f < 10000`, zero-padded. -/
def pad4 (f : ℕ) : List Char :=
  [digitChar (f / 1000), digitChar (f / 100 % 10), digitChar (f / 10 % 10), digitChar (f % 10)]

/-- Floor of a non-negative rational, as a natural number. -/
def qfloorNat (q : ℚ) : ℕ := q.num.toNat / q.den

/-- The integer chosen by the ECMAScript `toFixed(4)` algorithm for a
non-negative magnitude: round `x * 10^4` half-up. -/
def fix4Int (x : ℚ) : ℕ := qfloorNat (x * 10000 + 1 / 2)

/-- `toFixed(4)` on a non-negative value: digits, dot, four digits. -/
def fmt4nn (x : ℚ) : List Char :=
  natStr (fix4Int x / 10000) ++ '.' :: pad4 (fix4Int x % 10000)

/-- ECMAScript `Number.prototype.toFixed(4)` on a numeric (non-`NaN`) value. -/
def fmt4 (x : ℚ) : List Char :=
  if x < 0 then '-' :: fmt4nn (-x) else fmt4nn x

/-- `toFixed(4)` on a JS number; `NaN.toFixed(4)` is `"NaN"`. -/
def jsToFixed4 : JsNum → List Char
  | none => ['N', 'a', 'N']
  | some q => fmt4 q

/-- Model of `parseFloat` on the `[\d.]+` fragment (see header): the longest
prefix of the form `digits [ . digits ]`; `NaN` when that prefix has no digit. -/
def jsParseFloatL (cs : List Char) : Option ℚ :=
  match cs.dropWhile isDigitC with
  | d :: rest2 =>
    if d.toNat == 46 then
      if (cs.takeWhile isDigitC).isEmpty && (rest2.takeWhile isDigitC).isEmpty then none
      else
        some ((natValN (cs.takeWhile isDigitC) : ℚ)
          + (natValN (rest2.takeWhile isDigitC) : ℚ)
            / ((10 ^ (rest2.takeWhile isDigitC).length : ℕ) : ℚ))
    else if (cs.takeWhile isDigitC).isEmpty then none
    else some (natValN (cs.takeWhile isDigitC))
  | [] =>
    if (cs.takeWhile isDigitC).isEmpty then none
    else some (natValN (cs.takeWhile isDigitC))

/-- JS subtraction: `NaN` absorbs. -/
def jsSub : JsNum → JsNum → JsNum
  | some x, some y => some (x - y)
  | _, _ => none

/-- JS multiplication: `NaN` absorbs. -/
def jsMul : JsNum → JsNum → JsNum
  | some x, some y => some (x * y)
  | _, _ => none

/-- JS division (used only with divisor `100`): `NaN` absorbs. -/
def jsDiv : JsNum → JsNum → JsNum
  | some x, some y => some (x / y)
  | _, _ => none

/-- `Math.min`: returns `NaN` if either argument is `NaN`. -/
def jsMin : JsNum → JsNum → JsNum
  | some x, some y => some (min x y)
  | _, _ => none

/-- `Math.max`: returns `NaN` if either argument is `NaN`. -/
def jsMax : JsNum → JsNum → JsNum
  | some x, some y => some (max x y)
  | _, _ => none

/-- The literal `oklch(` of the regex. -/
def oklchLit : List Char := ['o', 'k', 'l', 'c', 'h', '(']

/-- Consume a literal from the front of the input, returning the rest. -/
def dropLit : List Char → List Char → Option (List Char)
  | [], rest => some rest
  | _ :: _, [] => none
  | l :: ls, r :: rs => if r = l then dropLit ls rs else none

/-- Attempt of the regex `oklch\(\s*([\d.]+)\s+([\d.]+)\s+([\d.]+)\s*\)` at the
start of the input, returning the three captured groups.  The character
classes involved are pairwise disjoint, so this deterministic maximal-munch
scan agrees with the backtracking regex semantics (see header). -/
def matchOklchAt (cs : List Char) : Option (List Char × List Char × List Char) :=
  match dropLit oklchLit cs with
  | none => none
  | some r0 =>
    let r1 := r0.dropWhile isWs
    let a := r1.takeWhile isDigitDot
    match a with
    | [] => none
    | _ :: _ =>
      let r2 := r1.dropWhile isDigitDot
      match r2.takeWhile isWs with
      | [] => none
      | _ :: _ =>
        let r3 := r2.dropWhile isWs
        let b := r3.takeWhile isDigitDot
        match b with
        | [] => none
        | _ :: _ =>
          let r4 := r3.dropWhile isDigitDot
          match r4.takeWhile isWs with
          | [] => none
          | _ :: _ =>
            let r5 := r4.dropWhile isWs
            let c := r5.takeWhile isDigitDot
            match c with
            | [] => none
            | _ :: _ =>
              let r6 := r5.dropWhile isDigitDot
              match r6.dropWhile isWs with
              | d :: _ => if d.toNat == 41 then some (a, b, c) else none
              | [] => none

/-- `String.prototype.match` with the unanchored regex: try every start
position, leftmost match first. -/
def findOklch : List Char → Option (List Char × List Char × List Char)
  | [] => none
  | c :: cs =>
    match matchOklchAt (c :: cs) with
    | some r => some r
    | none => findOklch cs

/-- Strip leading JS whitespace. -/
def trimL (cs : List Char) : List Char := cs.dropWhile isWs

/-- Strip trailing JS whitespace. -/
def trimR (cs : List Char) : List Char := (cs.reverse.dropWhile isWs).reverse

/-- Model of `String.prototype.trim`. -/
def jsTrim (cs : List Char) : List Char := trimR (trimL cs)

/-- The output template `` `oklch(${l} ${c} ${h})` ``. -/
def mkOklchOut (x y z : List Char) : String :=
  String.mk (oklchLit ++ (x ++ (' ' :: (y ++ (' ' :: (z ++ [')']))))))

/-- Embedding of `adjustOklchLightness` from
`src/public/asset/js/color-palette.js`.  `oklchRaw` is the string resolved
from the CSS custom property (see header); `percentageModification` is the
percentage argument after JS numeric coercion (`parseFloat` of a number is
the number itself, of a non-numeric string is `NaN`). -/
def adjustOklchLightness (oklchRaw : String) (percentageModification : JsNum) : Option String :=
  let oklchValue := jsTrim oklchRaw.data
  match findOklch oklchValue with
  | none => none
  | some (ga, gb, gc) =>
    let lightness := jsParseFloatL ga
    let chroma := jsParseFloatL gb
    let hue := jsParseFloatL gc
    let numericPercentage := jsDiv percentageModification (some 100)
    let lightness2 := jsSub lightness (jsMul lightness numericPercentage)
    let lightness3 := jsMax (some 0) (jsMin (some 1) lightness2)
    some (mkOklchOut (jsToFixed4 lightness3) (jsToFixed4 chroma) (jsToFixed4 hue))

/-! ## Spec-side helper definitions -/

/-- The clamp of step 7 of the spec: `max(0, min(1, x))`. -/
def clampQ (x : ℚ) : ℚ := max 0 (min 1 x)

/-- The lightness value computed by the algorithm before formatting:
`clamp (L - L * (p / 100))`. -/
def adjustedL (L p : ℚ) : ℚ := clampQ (L - L * (p / 100))

/-- The source text `oklch(a b c)` built from three component texts. -/
def mkOklchText (a b c : List Char) : String :=
  String.mk (oklchLit ++ (a ++ (' ' :: (b ++ (' ' :: (c ++ [')']))))))

/-- A token the regex accepts as one component: non-empty, all digits/dots. -/
def IsNumToken (a : List Char) : Prop :=
  a ≠ [] ∧ ∀ x ∈ a, isDigitDot x = true

/-- Shape check for claim C6: one or more digits, a dot, exactly four digits. -/
def isFixed4Shape (cs : List Char) : Bool :=
  let d1 := cs.takeWhile isDigitC
  match cs.dropWhile isDigitC with
  | d :: rest2 => d.toNat == 46 && (!d1.isEmpty && (rest2.length == 4 && rest2.all isDigitC))
  | [] => false

/-- Decidable check whether the pattern matches at some position of `cs`. -/
def anyMatchPos (cs : List Char) : Bool :=
  (List.range (cs.length + 1)).any (fun n => (matchOklchAt (cs.drop n)).isSome)

/-! ## Binary64 rounding model (used for the concrete chain of claim C1) -/

/-- Normalize `q > 0` into `m * 2^e` with `1 ≤ m < 2`, fuel-bounded. -/
def norm2 : ℕ → ℚ → ℤ → ℚ × ℤ
  | 0, q, e => (q, e)
  | fuel + 1, q, e =>
    if q < 1 then norm2 fuel (2 * q) (e - 1)
    else if 2 ≤ q then norm2 fuel (q / 2) (e + 1)
    else (q, e)

/-- Round a rational to an integer, ties to even. -/
def rhe (x : ℚ) : ℤ :=
  let f := x.num.fdiv x.den
  let r := x - f
  if r < 1 / 2 then f
  else if 1 / 2 < r then f + 1
  else if f % 2 = 0 then f else f + 1

/-- `2^e` as a rational, for any integer `e`. -/
def pow2 (e : ℤ) : ℚ :=
  if 0 ≤ e then ((2 : ℚ) ^ e.toNat) else 1 / (2 : ℚ) ^ (-e).toNat

/-- Round a rational to the nearest IEEE-754 binary64 value (round to
nearest, ties to even), for values in the normal range. -/
def round64 (q : ℚ) : ℚ :=
  if q = 0 then 0
  else
    let s : ℚ := if q < 0 then -1 else 1
    let me := norm2 1200 |q| 0
    s * (rhe (me.1 * 2 ^ 52) : ℚ) * pow2 (me.2 - 52)

/-- The arithmetic chain of the source evaluated in binary64: every parsed
literal and every intermediate arithmetic result is rounded to the nearest
double; comparisons and `toFixed` read the exact value of the double. -/
def adjust64OnValues (L C H p : ℚ) : String :=
  let l := round64 L
  let c := round64 C
  let h := round64 H
  let frac := round64 (round64 p / 100)
  let prod := round64 (l * frac)
  let diff := round64 (l - prod)
  let cl := max 0 (min 1 diff)
  mkOklchOut (fmt4 cl) (fmt4 c) (fmt4 h)

/-! ## Character class facts -/

theorem not_ws_of_digitDot {ch : Char} (h : isDigitDot ch = true) : isWs ch = false := by
  simp only [isDigitDot, isDigitC, Bool.or_eq_true, Bool.and_eq_true, decide_eq_true_eq,
    beq_iff_eq] at h
  simp only [isWs, Bool.or_eq_false_iff, beq_eq_false_iff_ne, ne_eq]
  omega

/-! ## List scanning facts -/

theorem takeWhile_eq_self_of_all {p : Char → Bool} {xs : List Char}
    (h : ∀ x ∈ xs, p x = true) : xs.takeWhile p = xs := by
  induction xs with
  | nil => rfl
  | cons x xs ih =>
    rw [List.takeWhile_cons_of_pos (h x (by simp))]
    exact congrArg (x :: ·) (ih fun y hy => h y (by simp [hy]))

theorem dropWhile_eq_nil_of_all {p : Char → Bool} {xs : List Char}
    (h : ∀ x ∈ xs, p x = true) : xs.dropWhile p = [] := by
  induction xs with
  | nil => rfl
  | cons x xs ih =>
    rw [List.dropWhile_cons_of_pos (h x (by simp))]
    exact ih fun y hy => h y (by simp [hy])

theorem takeWhile_append_stop {p : Char → Bool} {xs : List Char} {y : Char} {ys : List Char}
    (hxs : ∀ x ∈ xs, p x = true) (hy : p y = false) :
    (xs ++ y :: ys).takeWhile p = xs := by
  have hy2 : ¬ p y = true := by simp [hy]
  rw [List.takeWhile_append, takeWhile_eq_self_of_all hxs, if_pos rfl,
    List.takeWhile_cons_of_neg hy2, List.append_nil]

theorem dropWhile_append_stop {p : Char → Bool} {xs : List Char} {y : Char} {ys : List Char}
    (hxs : ∀ x ∈ xs, p x = true) (hy : p y = false) :
    (xs ++ y :: ys).dropWhile p = y :: ys := by
  have hy2 : ¬ p y = true := by simp [hy]
  rw [List.dropWhile_append, dropWhile_eq_nil_of_all hxs]
  simp [List.dropWhile_cons_of_neg hy2]

theorem dropLit_append (lit rest : List Char) : dropLit lit (lit ++ rest) = some rest := by
  induction lit with
  | nil => rfl
  | cons l ls ih => simp [dropLit, ih]

/-! ## Digit rendering facts -/

theorem dval_digitChar {d : ℕ} (h : d < 10) : dval (digitChar d) = d := by
  interval_cases d <;> decide

theorem isDigitC_digitChar {d : ℕ} (h : d < 10) : isDigitC (digitChar d) = true := by
  interval_cases d <;> decide

theorem natValN_append_singleton (xs : List Char) (d : Char) :
    natValN (xs ++ [d]) = 10 * natValN xs + dval d := by
  simp only [natValN, List.foldl_append, List.foldl_cons, List.foldl_nil]

theorem natStrAux_spec : ∀ fuel n, n < fuel →
    natStrAux fuel n ≠ [] ∧ (∀ ch ∈ natStrAux fuel n, isDigitC ch = true) ∧
      natValN (natStrAux fuel n) = n := by
  intro fuel
  induction fuel with
  | zero => intro n h; omega
  | succ fuel ih =>
    intro n hn
    by_cases h10 : n < 10
    · refine ⟨by simp [natStrAux, h10], ?_, ?_⟩
      · intro ch hch
        simp only [natStrAux, if_pos h10, List.mem_singleton] at hch
        subst hch
        exact isDigitC_digitChar h10
      · simp only [natStrAux, if_pos h10, natValN, List.foldl_cons, List.foldl_nil]
        rw [Nat.mul_zero, Nat.zero_add, dval_digitChar h10]
    · have hdiv : n / 10 < fuel := by omega
      obtain ⟨hne, hall, hval⟩ := ih (n / 10) hdiv
      rw [natStrAux, if_neg h10]
      refine ⟨by simp, ?_, ?_⟩
      · intro ch hch
        rcases List.mem_append.mp hch with h | h
        · exact hall ch h
        · rw [List.mem_singleton] at h
          subst h
          exact isDigitC_digitChar (Nat.mod_lt _ (by omega))
      · rw [natValN_append_singleton, hval, dval_digitChar (Nat.mod_lt _ (by omega))]
        omega

theorem natStr_spec (n : ℕ) :
    natStr n ≠ [] ∧ (∀ ch ∈ natStr n, isDigitC ch = true) ∧ natValN (natStr n) = n :=
  natStrAux_spec (n + 1) n (Nat.lt_succ_self n)

theorem pad4_all {f : ℕ} (h : f < 10000) : ∀ ch ∈ pad4 f, isDigitC ch = true := by
  intro ch hch
  simp only [pad4, List.mem_cons, List.mem_singleton, List.not_mem_nil, or_false] at hch
  rcases hch with rfl | rfl | rfl | rfl
  · exact isDigitC_digitChar (by omega)
  · exact isDigitC_digitChar (Nat.mod_lt _ (by omega))
  · exact isDigitC_digitChar (Nat.mod_lt _ (by omega))
  · exact isDigitC_digitChar (Nat.mod_lt _ (by omega))

theorem natValN_pad4 {f : ℕ} (h : f < 10000) : natValN (pad4 f) = f := by
  have h1 : f / 1000 < 10 := by omega
  have h2 : f / 100 % 10 < 10 := Nat.mod_lt _ (by omega)
  have h3 : f / 10 % 10 < 10 := Nat.mod_lt _ (by omega)
  have h4 : f % 10 < 10 := Nat.mod_lt _ (by omega)
  simp only [natValN, pad4, List.foldl_cons, List.foldl_nil,
    dval_digitChar h1, dval_digitChar h2, dval_digitChar h3, dval_digitChar h4]
  omega

/-! ## Parsing the fixed-point rendering back -/

theorem jsParseFloatL_format {i f : ℕ} (hf : f < 10000) :
    jsParseFloatL (natStr i ++ '.' :: pad4 f) = some ((i : ℚ) + (f : ℚ) / 10 ^ 4) := by
  obtain ⟨hne, hall, hval⟩ := natStr_spec i
  have hdot : isDigitC '.' = false := by decide
  have hdot46 : (('.').toNat == 46) = true := by decide
  have hne2 : (natStr i).isEmpty = false := by
    cases hni : natStr i with
    | nil => exact absurd hni hne
    | cons x xs => rfl
  unfold jsParseFloatL
  rw [takeWhile_append_stop hall hdot, dropWhile_append_stop hall hdot]
  simp only [hdot46, if_true, hne2, takeWhile_eq_self_of_all (pad4_all hf), hval,
    natValN_pad4 hf, Bool.false_and, Bool.false_eq_true, if_false,
    show (pad4 f).length = 4 from rfl]
  norm_num

theorem cast_toNat_num {q : ℚ} (h : 0 ≤ q) : ((q.num.toNat : ℕ) : ℚ) = (q.num : ℚ) := by
  have h0 : 0 ≤ q.num := Rat.num_nonneg.mpr h
  exact_mod_cast congrArg (fun z : ℤ => (z : ℚ)) (Int.toNat_of_nonneg h0)

theorem natCast_div_le (a d : ℕ) (hd : 0 < d) :
    ((a / d : ℕ) : ℚ) ≤ (a : ℚ) / (d : ℚ) := by
  rw [le_div_iff₀ (by exact_mod_cast hd)]
  exact_mod_cast Nat.div_mul_le_self a d

theorem lt_natCast_div_add_one (a d : ℕ) (hd : 0 < d) :
    (a : ℚ) / (d : ℚ) < ((a / d : ℕ) : ℚ) + 1 := by
  rw [div_lt_iff₀ (by exact_mod_cast hd)]
  have hnat : a < (a / d + 1) * d := by
    have h1 := Nat.div_add_mod a d
    have h2 := Nat.mod_lt a hd
    calc a = d * (a / d) + a % d := h1.symm
      _ < d * (a / d) + d := Nat.add_lt_add_left h2 _
      _ = (a / d + 1) * d := by ring
  exact_mod_cast hnat

theorem qfloorNat_le {q : ℚ} (h : 0 ≤ q) : (qfloorNat q : ℚ) ≤ q := by
  have hq : q = ((q.num.toNat : ℕ) : ℚ) / (q.den : ℚ) := by
    rw [cast_toNat_num h]
    exact (Rat.num_div_den q).symm
  calc (qfloorNat q : ℚ) ≤ ((q.num.toNat : ℕ) : ℚ) / (q.den : ℚ) :=
        natCast_div_le q.num.toNat q.den q.den_pos
    _ = q := hq.symm

theorem lt_qfloorNat_add_one {q : ℚ} (h : 0 ≤ q) : q < (qfloorNat q : ℚ) + 1 := by
  have hq : q = ((q.num.toNat : ℕ) : ℚ) / (q.den : ℚ) := by
    rw [cast_toNat_num h]
    exact (Rat.num_div_den q).symm
  calc q = ((q.num.toNat : ℕ) : ℚ) / (q.den : ℚ) := hq
    _ < ((q.num.toNat / q.den : ℕ) : ℚ) + 1 := lt_natCast_div_add_one _ _ q.den_pos
    _ = (qfloorNat q : ℚ) + 1 := rfl

theorem fix4Int_le_of_le_one {x : ℚ} (hx0 : 0 ≤ x) (hx1 : x ≤ 1) : fix4Int x ≤ 10000 := by
  have harg : (0 : ℚ) ≤ x * 10000 + 1 / 2 := by positivity
  have h1 : (fix4Int x : ℚ) ≤ x * 10000 + 1 / 2 := qfloorNat_le harg
  have h3 : (fix4Int x : ℚ) < 10001 := by nlinarith
  exact Nat.lt_succ_iff.mp (by exact_mod_cast h3)

theorem fix4Int_exact (m : ℕ) : fix4Int ((m : ℚ) / 10000) = m := by
  have harg : ((m : ℚ) / 10000) * 10000 + 1 / 2 = (m : ℚ) + 1 / 2 := by
    field_simp
  have h0 : (0 : ℚ) ≤ (m : ℚ) + 1 / 2 := by positivity
  have h1 : (qfloorNat ((m : ℚ) + 1 / 2) : ℚ) ≤ (m : ℚ) + 1 / 2 := qfloorNat_le h0
  have h2 : (m : ℚ) + 1 / 2 < (qfloorNat ((m : ℚ) + 1 / 2) : ℚ) + 1 := lt_qfloorNat_add_one h0
  have hle : qfloorNat ((m : ℚ) + 1 / 2) ≤ m := by
    have h5 : (qfloorNat ((m : ℚ) + 1 / 2) : ℚ) < (m : ℚ) + 1 := by linarith
    exact Nat.lt_succ_iff.mp (by exact_mod_cast h5)
  have hge : m ≤ qfloorNat ((m : ℚ) + 1 / 2) := by
    have h6 : (m : ℚ) < (qfloorNat ((m : ℚ) + 1 / 2) : ℚ) + 1 := by linarith
    exact Nat.lt_succ_iff.mp (by exact_mod_cast h6)
  unfold fix4Int
  rw [harg]
  omega

/-- The rational value denoted by the four-decimal rendering of `x`. -/
def fixed4Val (x : ℚ) : ℚ := (fix4Int x : ℚ) / 10 ^ 4

theorem jsParseFloatL_fmt4nn (x : ℚ) :
    jsParseFloatL (fmt4nn x) = some (fixed4Val x) := by
  unfold fmt4nn
  rw [jsParseFloatL_format (Nat.mod_lt _ (by norm_num))]
  unfold fixed4Val
  congr 1
  have hnm : (10000 : ℕ) * (fix4Int x / 10000) + fix4Int x % 10000 = fix4Int x :=
    Nat.div_add_mod _ _
  have hq : (10000 : ℚ) * ((fix4Int x / 10000 : ℕ) : ℚ) + ((fix4Int x % 10000 : ℕ) : ℚ)
      = ((fix4Int x : ℕ) : ℚ) := by exact_mod_cast hnm
  have h4 : (10 : ℚ) ^ 4 = 10000 := by norm_num
  rw [h4, eq_div_iff (by norm_num : (10000 : ℚ) ≠ 0), add_mul,
    div_mul_cancel₀ _ (by norm_num : (10000 : ℚ) ≠ 0)]
  linarith [hq]

theorem fmt4_eq_fmt4nn {x : ℚ} (h : 0 ≤ x) : fmt4 x = fmt4nn x := by
  unfold fmt4
  rw [if_neg (by linarith)]

theorem clampQ_nonneg (x : ℚ) : 0 ≤ clampQ x := le_max_left 0 _

theorem clampQ_le_one (x : ℚ) : clampQ x ≤ 1 := max_le (by norm_num) (min_le_left 1 x)

theorem fixed4Val_nonneg (x : ℚ) : 0 ≤ fixed4Val x := by
  unfold fixed4Val
  positivity

theorem fixed4Val_le_one {x : ℚ} (hx0 : 0 ≤ x) (hx1 : x ≤ 1) : fixed4Val x ≤ 1 := by
  unfold fixed4Val
  rw [div_le_one (by norm_num)]
  have h := fix4Int_le_of_le_one hx0 hx1
  exact_mod_cast h

/-! ## The scanner on canonical `oklch(a b c)` inputs -/

theorem dropWhile_ws_token {a : List Char} (ha : IsNumToken a) (Y : List Char) :
    (a ++ Y).dropWhile isWs = a ++ Y := by
  obtain ⟨hne, hall⟩ := ha
  obtain ⟨a0, a1, rfl⟩ := List.exists_cons_of_ne_nil hne
  have h0 : ¬ isWs a0 = true := by
    simp [not_ws_of_digitDot (hall a0 (by simp))]
  exact List.dropWhile_cons_of_neg h0

theorem matchOklchAt_canonical {a b c : List Char} (tail : List Char)
    (ha : IsNumToken a) (hb : IsNumToken b) (hc : IsNumToken c) :
    matchOklchAt (oklchLit ++ (a ++ ' ' :: (b ++ ' ' :: (c ++ ')' :: tail))))
      = some (a, b, c) := by
  have hspd : isDigitDot ' ' = false := by decide
  have hpard : isDigitDot ')' = false := by decide
  have dwA := dropWhile_ws_token ha
  have dwB := dropWhile_ws_token hb
  have dwC := dropWhile_ws_token hc
  have tA : ∀ ys : List Char, (a ++ ' ' :: ys).takeWhile isDigitDot = a := fun ys =>
    takeWhile_append_stop ha.2 hspd
  have dA : ∀ ys : List Char, (a ++ ' ' :: ys).dropWhile isDigitDot = ' ' :: ys := fun ys =>
    dropWhile_append_stop ha.2 hspd
  have tB : ∀ ys : List Char, (b ++ ' ' :: ys).takeWhile isDigitDot = b := fun ys =>
    takeWhile_append_stop hb.2 hspd
  have dB : ∀ ys : List Char, (b ++ ' ' :: ys).dropWhile isDigitDot = ' ' :: ys := fun ys =>
    dropWhile_append_stop hb.2 hspd
  have tC : ∀ ys : List Char, (c ++ ')' :: ys).takeWhile isDigitDot = c := fun ys =>
    takeWhile_append_stop hc.2 hpard
  have dC : ∀ ys : List Char, (c ++ ')' :: ys).dropWhile isDigitDot = ')' :: ys := fun ys =>
    dropWhile_append_stop hc.2 hpard
  have sTake : ∀ Z : List Char, (' ' :: Z).takeWhile isWs = ' ' :: Z.takeWhile isWs :=
    fun Z => List.takeWhile_cons_of_pos (by decide)
  have sDrop : ∀ Z : List Char, (' ' :: Z).dropWhile isWs = Z.dropWhile isWs :=
    fun Z => List.dropWhile_cons_of_pos (by decide)
  have pDrop : ∀ Z : List Char, (')' :: Z).dropWhile isWs = ')' :: Z :=
    fun Z => List.dropWhile_cons_of_neg (by decide)
  obtain ⟨a0, a1, ha1⟩ := List.exists_cons_of_ne_nil ha.1
  obtain ⟨b0, b1, hb1⟩ := List.exists_cons_of_ne_nil hb.1
  obtain ⟨c0, c1, hc1⟩ := List.exists_cons_of_ne_nil hc.1
  unfold matchOklchAt
  rw [dropLit_append]
  simp only [dwA, tA, dA, sTake, sDrop, dwB, tB, dB, dwC, tC, dC, pDrop]
  rw [ha1, hb1, hc1]
  simp only [show (')'.toNat == 41) = true from by decide, if_true]

theorem findOklch_canonical {a b c : List Char} (tail : List Char)
    (ha : IsNumToken a) (hb : IsNumToken b) (hc : IsNumToken c) :
    findOklch (oklchLit ++ (a ++ ' ' :: (b ++ ' ' :: (c ++ ')' :: tail))))
      = some (a, b, c) := by
  have hm := matchOklchAt_canonical tail ha hb hc
  have hexp : ∀ Y : List Char,
      oklchLit ++ Y = 'o' :: ('k' :: ('l' :: ('c' :: ('h' :: ('(' :: Y))))) := fun Y => rfl
  rw [hexp] at hm ⊢
  simp only [findOklch, hm]

/-! ## Trimming -/

theorem trimL_head_not_ws {z : Char} {W : List Char} (hz : isWs z = false) :
    trimL (z :: W) = z :: W := by
  have hz2 : ¬ isWs z = true := by simp [hz]
  exact List.dropWhile_cons_of_neg hz2

theorem trimR_last_not_ws {W : List Char} {z : Char} (hz : isWs z = false) :
    trimR (W ++ [z]) = W ++ [z] := by
  have hz2 : ¬ isWs z = true := by simp [hz]
  unfold trimR
  rw [List.reverse_append]
  simp only [List.reverse_cons, List.reverse_nil, List.nil_append, List.singleton_append]
  rw [List.dropWhile_cons_of_neg hz2]
  simp [List.reverse_cons, List.reverse_reverse]

theorem jsTrim_canonical (a b c : List Char) :
    jsTrim (oklchLit ++ (a ++ ' ' :: (b ++ ' ' :: (c ++ [')']))))
      = oklchLit ++ (a ++ ' ' :: (b ++ ' ' :: (c ++ [')']))) := by
  have hassoc : oklchLit ++ (a ++ ' ' :: (b ++ ' ' :: (c ++ [')'])))
      = (oklchLit ++ (a ++ ' ' :: (b ++ ' ' :: c))) ++ [')'] := by
    simp [List.append_assoc]
  have hexp : ∀ Y : List Char,
      oklchLit ++ Y = 'o' :: ('k' :: ('l' :: ('c' :: ('h' :: ('(' :: Y))))) := fun Y => rfl
  unfold jsTrim
  rw [hexp, trimL_head_not_ws (by decide), ← hexp, hassoc, trimR_last_not_ws (by decide),
    ← hassoc]

/-! ## Unfolding `adjustOklchLightness` -/

theorem adjust_eq_of_find {s : String} {a b c : List Char} (p : JsNum)
    (h : findOklch (jsTrim s.data) = some (a, b, c)) :
    adjustOklchLightness s p
      = some (mkOklchOut
          (jsToFixed4 (jsMax (some 0) (jsMin (some 1)
            (jsSub (jsParseFloatL a) (jsMul (jsParseFloatL a) (jsDiv p (some 100)))))))
          (jsToFixed4 (jsParseFloatL b)) (jsToFixed4 (jsParseFloatL c))) := by
  simp only [adjustOklchLightness, h]

theorem adjust_eq_of_none {s : String} (p : JsNum)
    (h : findOklch (jsTrim s.data) = none) :
    adjustOklchLightness s p = none := by
  simp only [adjustOklchLightness, h]

theorem adjust_eq_of_parsed {s : String} {a b c : List Char} {L C H p : ℚ}
    (h : findOklch (jsTrim s.data) = some (a, b, c))
    (ha : jsParseFloatL a = some L) (hb : jsParseFloatL b = some C)
    (hc : jsParseFloatL c = some H) :
    adjustOklchLightness s (some p)
      = some (mkOklchOut (fmt4 (adjustedL L p)) (fmt4 C) (fmt4 H)) := by
  rw [adjust_eq_of_find (some p) h, ha, hb, hc]
  rfl

theorem jsParseFloatL_nonneg {t : List Char} {v : ℚ}
    (h : jsParseFloatL t = some v) : 0 ≤ v := by
  unfold jsParseFloatL at h
  split at h
  · split_ifs at h
    · rw [Option.some.injEq] at h
      rw [← h]
      positivity
    · rw [Option.some.injEq] at h
      rw [← h]
      positivity
  · split_ifs at h
    rw [Option.some.injEq] at h
    rw [← h]
    positivity

theorem isFixed4Shape_fmt4nn (x : ℚ) : isFixed4Shape (fmt4nn x) = true := by
  obtain ⟨hne, hall, hval⟩ := natStr_spec (fix4Int x / 10000)
  have hdot : isDigitC '.' = false := by decide
  have hne2 : (natStr (fix4Int x / 10000)).isEmpty = false := by
    cases hni : natStr (fix4Int x / 10000) with
    | nil => exact absurd hni hne
    | cons y ys => rfl
  unfold isFixed4Shape fmt4nn
  rw [takeWhile_append_stop hall hdot, dropWhile_append_stop hall hdot]
  simp only [show (('.').toNat == 46) = true from by decide, hne2, Bool.not_false,
    show (pad4 (fix4Int x % 10000)).length = 4 from rfl, Bool.true_and, beq_self_eq_true,
    List.all_eq_true]
  exact pad4_all (Nat.mod_lt _ (by norm_num))

/-! ## Positions of the unanchored scanner -/

theorem matchOklchAt_nil : matchOklchAt [] = none := rfl

theorem findOklch_isSome_of_suffix (u rest : List Char)
    (h : (matchOklchAt rest).isSome = true) : (findOklch (u ++ rest)).isSome = true := by
  induction u with
  | nil =>
    rw [List.nil_append]
    cases rest with
    | nil => rw [matchOklchAt_nil] at h; exact absurd h (by simp)
    | cons r rs =>
      rw [findOklch]
      cases hm : matchOklchAt (r :: rs) with
      | some v => simp
      | none => rw [hm] at h; exact absurd h (by simp)
  | cons xu u ih =>
    rw [List.cons_append, findOklch]
    cases hm : matchOklchAt (xu :: (u ++ rest)) with
    | some v => simp
    | none => exact ih

theorem findOklch_eq_none_iff (cs : List Char) :
    findOklch cs = none ↔ ∀ n : ℕ, matchOklchAt (cs.drop n) = none := by
  induction cs with
  | nil => simp [findOklch, matchOklchAt_nil]
  | cons x xs ih =>
    constructor
    · intro h n
      rw [findOklch] at h
      cases hm : matchOklchAt (x :: xs) with
      | some v => rw [hm] at h; exact absurd h (by simp)
      | none =>
        rw [hm] at h
        cases n with
        | zero => exact hm
        | succ n => rw [List.drop_succ_cons]; exact (ih.mp h) n
    · intro h
      rw [findOklch]
      have h0 := h 0
      rw [List.drop_zero] at h0
      rw [h0]
      refine ih.mpr fun n => ?_
      have hn := h (n + 1)
      rw [List.drop_succ_cons] at hn
      exact hn

theorem anyMatchPos_eq_false_iff (cs : List Char) :
    anyMatchPos cs = false ↔ ∀ n : ℕ, matchOklchAt (cs.drop n) = none := by
  unfold anyMatchPos
  rw [List.any_eq_false]
  constructor
  · intro h n
    by_cases hn : n < cs.length + 1
    · exact Option.not_isSome_iff_eq_none.mp (h n (List.mem_range.mpr hn))
    · have hlen : cs.length ≤ n := by omega
      rw [List.drop_eq_nil_of_le hlen, matchOklchAt_nil]
  · intro h n _
    rw [h n]
    simp

theorem findOklch_eq_none_iff_anyMatchPos (cs : List Char) :
    findOklch cs = none ↔ anyMatchPos cs = false := by
  rw [findOklch_eq_none_iff, anyMatchPos_eq_false_iff]

/-! ## Trimming never destroys an inner occurrence with non-whitespace ends -/

theorem dropWhile_append_head_not {p : Char → Bool} {zs : List Char}
    (hz0 : ∃ z0 t, zs = z0 :: t ∧ p z0 = false) (w : List Char) :
    ∃ u, (w ++ zs).dropWhile p = u ++ zs := by
  obtain ⟨z0, t, rfl, hz⟩ := hz0
  have hzn : ¬ p z0 = true := by simp [hz]
  rw [List.dropWhile_append]
  by_cases hwe : (w.dropWhile p).isEmpty
  · rw [if_pos hwe]
    exact ⟨[], by rw [List.dropWhile_cons_of_neg hzn, List.nil_append]⟩
  · rw [if_neg hwe]
    exact ⟨w.dropWhile p, rfl⟩

theorem jsTrim_decomp {mid : List Char} (x y : List Char)
    (hh : ∃ m0 ms, mid = m0 :: ms ∧ isWs m0 = false)
    (hl : ∃ ms2 mlast, mid = ms2 ++ [mlast] ∧ isWs mlast = false) :
    ∃ u v, jsTrim (x ++ (mid ++ y)) = u ++ (mid ++ v) := by
  obtain ⟨m0, ms, hmid0, hm0⟩ := hh
  obtain ⟨ms2, mlast, hmid2, hml⟩ := hl
  have h1 : ∃ u, trimL (x ++ (mid ++ y)) = u ++ (mid ++ y) := by
    unfold trimL
    exact dropWhile_append_head_not ⟨m0, ms ++ y, by rw [hmid0]; rfl, hm0⟩ x
  obtain ⟨u, hu⟩ := h1
  have hrev : (u ++ (mid ++ y)).reverse = y.reverse ++ (mid.reverse ++ u.reverse) := by
    simp [List.reverse_append, List.append_assoc]
  have hz0 : ∃ z0 t, mid.reverse ++ u.reverse = z0 :: t ∧ isWs z0 = false := by
    refine ⟨mlast, ms2.reverse ++ u.reverse, ?_, hml⟩
    rw [hmid2]
    simp
  obtain ⟨w2, hw2⟩ := dropWhile_append_head_not hz0 y.reverse
  refine ⟨u, w2.reverse, ?_⟩
  unfold jsTrim
  rw [hu]
  unfold trimR
  rw [hrev, hw2]
  simp [List.reverse_append, List.reverse_reverse, List.append_assoc]

/-! ## `adjustOklchLightness` on a canonical `oklch(a b c)` source text -/

theorem data_mkOklchText (a b c : List Char) :
    (mkOklchText a b c).data = oklchLit ++ (a ++ ' ' :: (b ++ ' ' :: (c ++ [')']))) := rfl

theorem adjust_canonical {a b c : List Char} {L C H p : ℚ}
    (ha : IsNumToken a) (hb : IsNumToken b) (hc : IsNumToken c)
    (hpa : jsParseFloatL a = some L) (hpb : jsParseFloatL b = some C)
    (hpc : jsParseFloatL c = some H) :
    adjustOklchLightness (mkOklchText a b c) (some p)
      = some (mkOklchOut (fmt4 (adjustedL L p)) (fmt4 C) (fmt4 H)) := by
  have hfind : findOklch (jsTrim (mkOklchText a b c).data) = some (a, b, c) := by
    rw [data_mkOklchText, jsTrim_canonical]
    exact findOklch_canonical [] ha hb hc
  exact adjust_eq_of_parsed hfind hpa hpb hpc

/-! ## Claims -/

/-- **C1**: for every looked-up text of the form `oklch(L C H)` with three
decimal numbers and every numeric percentage `p`, the function returns the
string obtained by computing `frac = p / 100`, `L1 = L - L * frac`, clamping
to `[0, 1]` and formatting all three components to four decimals; in
particular `"oklch(0.7 0.15 250)"` with percentage `10` gives exactly
`"oklch(0.6300 0.1500 250.0000)"`, and the same string results when every
parse and arithmetic step is rounded to binary64 (`adjust64OnValues`). -/
theorem C1_parse_transform_format :
    (∀ (a b c : List Char) (L C H p : ℚ),
        IsNumToken a → IsNumToken b → IsNumToken c →
        jsParseFloatL a = some L → jsParseFloatL b = some C → jsParseFloatL c = some H →
        adjustOklchLightness (mkOklchText a b c) (some p)
          = some (mkOklchOut (fmt4 (adjustedL L p)) (fmt4 C) (fmt4 H)))
    ∧ adjustOklchLightness "oklch(0.7 0.15 250)" (some 10)
        = some "oklch(0.6300 0.1500 250.0000)"
    ∧ adjust64OnValues (7 / 10) (15 / 100) 250 10 = "oklch(0.6300 0.1500 250.0000)" := by
  refine ⟨?_, ?_, ?_⟩
  · intro a b c L C H p ha hb hc hpa hpb hpc
    exact adjust_canonical ha hb hc hpa hpb hpc
  · decide
  · decide

/-- Witness for C1: the universal part applied at `oklch(0.5 0.2 30)`,
percentage `50`. -/
theorem C1_witness :
    adjustOklchLightness (mkOklchText ['0', '.', '5'] ['0', '.', '2'] ['3', '0']) (some 50)
      = some (mkOklchOut (fmt4 (adjustedL (1 / 2) 50)) (fmt4 (1 / 5)) (fmt4 30)) :=
  C1_parse_transform_format.1 ['0', '.', '5'] ['0', '.', '2'] ['3', '0'] (1 / 2) (1 / 5) 30 50
    ⟨by decide, by decide⟩ ⟨by decide, by decide⟩ ⟨by decide, by decide⟩
    (by decide) (by decide)
    (by decide)

/-- **C2**: for every parsed sample `(L, C, H)` and every numeric (non-`NaN`)
percentage, the lightness component of the non-null output denotes a number
in `[0, 1]`: the output is the formatted clamp, and parsing its lightness
component back yields a value `v` with `0 ≤ v ≤ 1`. -/
theorem C2_clamped_lightness_in_unit_interval {s : String} {a b c : List Char} {L C H : ℚ}
    (p : ℚ)
    (hfind : findOklch (jsTrim s.data) = some (a, b, c))
    (ha : jsParseFloatL a = some L) (hb : jsParseFloatL b = some C)
    (hc : jsParseFloatL c = some H) :
    ∃ v : ℚ,
      adjustOklchLightness s (some p)
        = some (mkOklchOut (fmt4 (adjustedL L p)) (fmt4 C) (fmt4 H))
      ∧ jsParseFloatL (fmt4 (adjustedL L p)) = some v ∧ 0 ≤ v ∧ v ≤ 1 := by
  have h0 : 0 ≤ adjustedL L p := clampQ_nonneg _
  have h1 : adjustedL L p ≤ 1 := clampQ_le_one _
  refine ⟨fixed4Val (adjustedL L p), adjust_eq_of_parsed hfind ha hb hc, ?_,
    fixed4Val_nonneg _, fixed4Val_le_one h0 h1⟩
  rw [fmt4_eq_fmt4nn h0]
  exact jsParseFloatL_fmt4nn _

/-- Witness for C2 at `oklch(0.7 0.15 250)`, percentage `10`. -/
theorem C2_witness :
    ∃ v : ℚ,
      adjustOklchLightness "oklch(0.7 0.15 250)" (some 10)
        = some (mkOklchOut (fmt4 (adjustedL (7 / 10) 10)) (fmt4 (3 / 20)) (fmt4 250))
      ∧ jsParseFloatL (fmt4 (adjustedL (7 / 10) 10)) = some v ∧ 0 ≤ v ∧ v ≤ 1 :=
  C2_clamped_lightness_in_unit_interval (s := "oklch(0.7 0.15 250)")
    (a := ['0', '.', '7']) (b := ['0', '.', '1', '5']) (c := ['2', '5', '0'])
    10 (by decide) (by decide)
    (by decide) (by decide)

/-- **C3 counterexample**: the claim says a wrong function name makes the
result null, but `"not-oklch(0.5 0.1 30)"` — whose trimmed text is not of
the form `oklch(a b c)` — yields a non-null result, because the pattern is
unanchored. -/
theorem C3_counterexample_wrong_function_name :
    adjustOklchLightness "not-oklch(0.5 0.1 30)" (some 10)
      = some "oklch(0.4500 0.1000 30.0000)" := by
  decide

/-- **C3 amended**: the function returns null exactly when no position of the
trimmed looked-up text starts a match of `oklch( number number number )`;
whole-string malformedness alone (wrong prefix) does not imply null.  In
particular the empty string and `"rgb(255,0,0)"` yield null. -/
theorem C3_amended_null_iff_no_match_position (s : String) (p : JsNum) :
    (adjustOklchLightness s p = none ↔ anyMatchPos (jsTrim s.data) = false)
    ∧ adjustOklchLightness "" p = none
    ∧ adjustOklchLightness "rgb(255,0,0)" p = none := by
  refine ⟨⟨?_, ?_⟩, ?_, ?_⟩
  · intro h
    rw [← findOklch_eq_none_iff_anyMatchPos]
    cases hf : findOklch (jsTrim s.data) with
    | none => rfl
    | some r =>
      obtain ⟨a, b, c⟩ := r
      rw [adjust_eq_of_find p hf] at h
      exact absurd h (by simp)
  · intro h
    exact adjust_eq_of_none p ((findOklch_eq_none_iff_anyMatchPos _).mpr h)
  · exact adjust_eq_of_none p (by decide)
  · exact adjust_eq_of_none p (by decide)

/-- **C4**: for a valid parsed sample with `0 < L ≤ 1`, a positive percentage
strictly decreases the (clamped) output lightness value below `L` — also when
the clamp at `0` engages — and a negative percentage strictly increases it
when `L < 1`, while at `L = 1` the clamp pins the output at `1`. -/
theorem C4_sign_convention {s : String} {a b c : List Char} {L C H : ℚ} (p : ℚ)
    (hfind : findOklch (jsTrim s.data) = some (a, b, c))
    (ha : jsParseFloatL a = some L) (hb : jsParseFloatL b = some C)
    (hc : jsParseFloatL c = some H) (hL0 : 0 < L) (hL1 : L ≤ 1) :
    adjustOklchLightness s (some p)
      = some (mkOklchOut (fmt4 (adjustedL L p)) (fmt4 C) (fmt4 H))
    ∧ (0 < p → adjustedL L p < L)
    ∧ (p < 0 → (L < 1 → L < adjustedL L p) ∧ (L = 1 → adjustedL L p = 1)) := by
  refine ⟨adjust_eq_of_parsed hfind ha hb hc, ?_, ?_⟩
  · intro hp
    unfold adjustedL clampQ
    have hlt : L - L * (p / 100) < L := by nlinarith
    rw [max_lt_iff]
    exact ⟨hL0, lt_of_le_of_lt (min_le_right 1 _) hlt⟩
  · intro hp
    have hgt : L < L - L * (p / 100) := by nlinarith
    constructor
    · intro hLs
      unfold adjustedL clampQ
      have h1 : L < min 1 (L - L * (p / 100)) := lt_min_iff.mpr ⟨hLs, hgt⟩
      exact lt_of_lt_of_le h1 (le_max_right 0 _)
    · intro hLeq
      unfold adjustedL clampQ
      subst hLeq
      have h2 : (1 : ℚ) ≤ 1 - 1 * (p / 100) := by nlinarith
      rw [min_eq_left h2]
      exact max_eq_right (by norm_num)

/-- Witness for C4 at `oklch(0.7 0.15 250)`: percentage `10` decreases and
percentage `-10` increases the lightness value. -/
theorem C4_witness :
    (adjustOklchLightness "oklch(0.7 0.15 250)" (some 10)
      = some (mkOklchOut (fmt4 (adjustedL (7 / 10) 10)) (fmt4 (3 / 20)) (fmt4 250))
    ∧ adjustedL (7 / 10) 10 < 7 / 10)
    ∧ (7 / 10 : ℚ) < adjustedL (7 / 10) (-10) := by
  have h1 := C4_sign_convention (s := "oklch(0.7 0.15 250)")
    (a := ['0', '.', '7']) (b := ['0', '.', '1', '5']) (c := ['2', '5', '0'])
    (L := 7 / 10) (C := 3 / 20) (H := 250)
    10 (by decide) (by decide) (by decide)
    (by decide) (by norm_num) (by norm_num)
  have h2 := C4_sign_convention (s := "oklch(0.7 0.15 250)")
    (a := ['0', '.', '7']) (b := ['0', '.', '1', '5']) (c := ['2', '5', '0'])
    (L := 7 / 10) (C := 3 / 20) (H := 250)
    (-10) (by decide) (by decide) (by decide)
    (by decide) (by norm_num) (by norm_num)
  exact ⟨⟨h1.1, h1.2.1 (by norm_num)⟩, (h2.2.2 (by norm_num)).1 (by norm_num)⟩

/-- **C5 counterexample**: with percentage `0`, the parsed lightness `2` of
`"oklch(2 0.1 30)"` is clamped to `1.0000` (changed well beyond rounding
precision), and the chroma `0.12346` of `"oklch(0.5 0.12346 30)"` is rendered
`0.1235`, so chroma is not passed through numerically unchanged. -/
theorem C5_counterexample_rounding_and_clamping :
    adjustOklchLightness "oklch(2 0.1 30)" (some 0)
      = some "oklch(1.0000 0.1000 30.0000)"
    ∧ jsParseFloatL ['2'] = some 2 ∧ (2 : ℚ) ≠ 1
    ∧ adjustOklchLightness "oklch(0.5 0.12346 30)" (some 0)
      = some "oklch(0.5000 0.1235 30.0000)"
    ∧ jsParseFloatL ['0', '.', '1', '2', '3', '4', '6'] = some (6173 / 50000)
    ∧ jsParseFloatL ['0', '.', '1', '2', '3', '5'] = some (247 / 2000)
    ∧ (6173 / 50000 : ℚ) ≠ 247 / 2000 := by
  refine ⟨?_, ?_, ?_, ?_, ?_, ?_, ?_⟩ <;> decide

/-- **C5 amended**: for parsed samples with lightness at most `1`, percentage
`0` leaves the lightness value exactly unchanged; for every percentage the
chroma and hue values reach the output with no arithmetic modification, only
the four-decimal rendering, which is exact whenever the value has at most
four fractional digits. -/
theorem C5_amended_zero_identity_and_passthrough {s : String} {a b c : List Char}
    {L C H : ℚ}
    (hfind : findOklch (jsTrim s.data) = some (a, b, c))
    (ha : jsParseFloatL a = some L) (hb : jsParseFloatL b = some C)
    (hc : jsParseFloatL c = some H) (hL1 : L ≤ 1) :
    adjustedL L 0 = L
    ∧ adjustOklchLightness s (some 0) = some (mkOklchOut (fmt4 L) (fmt4 C) (fmt4 H))
    ∧ (∀ p : ℚ, adjustOklchLightness s (some p)
        = some (mkOklchOut (fmt4 (adjustedL L p)) (fmt4 C) (fmt4 H)))
    ∧ (∀ q : ℚ, 0 ≤ q → (∃ m : ℕ, q = (m : ℚ) / 10000) →
        jsParseFloatL (fmt4 q) = some q) := by
  have hL0 : 0 ≤ L := jsParseFloatL_nonneg ha
  have hid : adjustedL L 0 = L := by
    unfold adjustedL clampQ
    rw [show L - L * ((0 : ℚ) / 100) = L by ring, min_eq_right hL1]
    exact max_eq_right hL0
  refine ⟨hid, ?_, fun p => adjust_eq_of_parsed hfind ha hb hc, ?_⟩
  · have h := adjust_eq_of_parsed (p := 0) hfind ha hb hc
    rw [hid] at h
    exact h
  · rintro q hq0 ⟨m, hm⟩
    rw [fmt4_eq_fmt4nn hq0, jsParseFloatL_fmt4nn]
    congr 1
    unfold fixed4Val
    rw [hm, fix4Int_exact]
    norm_num

/-- Witness for C5 (amended) at `oklch(0.7 0.15 250)`. -/
theorem C5_witness :
    adjustedL (7 / 10) 0 = 7 / 10
    ∧ adjustOklchLightness "oklch(0.7 0.15 250)" (some 0)
      = some (mkOklchOut (fmt4 (7 / 10)) (fmt4 (3 / 20)) (fmt4 250))
    ∧ (∀ p : ℚ, adjustOklchLightness "oklch(0.7 0.15 250)" (some p)
        = some (mkOklchOut (fmt4 (adjustedL (7 / 10) p)) (fmt4 (3 / 20)) (fmt4 250)))
    ∧ (∀ q : ℚ, 0 ≤ q → (∃ m : ℕ, q = (m : ℚ) / 10000) →
        jsParseFloatL (fmt4 q) = some q) :=
  C5_amended_zero_identity_and_passthrough (s := "oklch(0.7 0.15 250)")
    (a := ['0', '.', '7']) (b := ['0', '.', '1', '5']) (c := ['2', '5', '0'])
    (by decide) (by decide) (by decide)
    (by decide) (by norm_num)

/-- **C6**: whenever parsing succeeds (with numeric captures) and the
percentage is numeric, the output is `oklch(<n> <n> <n>)` where each
component consists of one or more digits, a dot, and exactly four digits. -/
theorem C6_output_fixed4_shape {s : String} {a b c : List Char} {L C H : ℚ} (p : ℚ)
    (hfind : findOklch (jsTrim s.data) = some (a, b, c))
    (ha : jsParseFloatL a = some L) (hb : jsParseFloatL b = some C)
    (hc : jsParseFloatL c = some H) :
    adjustOklchLightness s (some p)
      = some (mkOklchOut (fmt4 (adjustedL L p)) (fmt4 C) (fmt4 H))
    ∧ isFixed4Shape (fmt4 (adjustedL L p)) = true
    ∧ isFixed4Shape (fmt4 C) = true
    ∧ isFixed4Shape (fmt4 H) = true := by
  have hC0 : 0 ≤ C := jsParseFloatL_nonneg hb
  have hH0 : 0 ≤ H := jsParseFloatL_nonneg hc
  have hadj : 0 ≤ adjustedL L p := clampQ_nonneg _
  refine ⟨adjust_eq_of_parsed hfind ha hb hc, ?_, ?_, ?_⟩
  · rw [fmt4_eq_fmt4nn hadj]
    exact isFixed4Shape_fmt4nn _
  · rw [fmt4_eq_fmt4nn hC0]
    exact isFixed4Shape_fmt4nn _
  · rw [fmt4_eq_fmt4nn hH0]
    exact isFixed4Shape_fmt4nn _

/-- Witness for C6 at `oklch(0.7 0.15 250)`, percentage `10`. -/
theorem C6_witness :
    adjustOklchLightness "oklch(0.7 0.15 250)" (some 10)
      = some (mkOklchOut (fmt4 (adjustedL (7 / 10) 10)) (fmt4 (3 / 20)) (fmt4 250))
    ∧ isFixed4Shape (fmt4 (adjustedL (7 / 10) 10)) = true
    ∧ isFixed4Shape (fmt4 (3 / 20)) = true
    ∧ isFixed4Shape (fmt4 250) = true :=
  C6_output_fixed4_shape (s := "oklch(0.7 0.15 250)")
    (a := ['0', '.', '7']) (b := ['0', '.', '1', '5']) (c := ['2', '5', '0'])
    10 (by decide) (by decide) (by decide) (by decide)

/-- **C7**: the function is total and never signals an error across its
boundary: for every looked-up string and every percentage (numeric or `NaN`)
it either returns null — exactly when the pattern matches nowhere — or the
formatted string; malformed color text degrades to null. -/
theorem C7_total_none_or_string (s : String) (p : JsNum) :
    (findOklch (jsTrim s.data) = none ∧ adjustOklchLightness s p = none)
    ∨ (∃ a b c : List Char, findOklch (jsTrim s.data) = some (a, b, c)
        ∧ adjustOklchLightness s p
          = some (mkOklchOut
              (jsToFixed4 (jsMax (some 0) (jsMin (some 1)
                (jsSub (jsParseFloatL a) (jsMul (jsParseFloatL a) (jsDiv p (some 100)))))))
              (jsToFixed4 (jsParseFloatL b)) (jsToFixed4 (jsParseFloatL c)))) := by
  cases hf : findOklch (jsTrim s.data) with
  | none => exact Or.inl ⟨rfl, adjust_eq_of_none p hf⟩
  | some r =>
    obtain ⟨a, b, c⟩ := r
    exact Or.inr ⟨a, b, c, rfl, adjust_eq_of_find p hf⟩

/-- **C8**: when the text parses but the percentage is `NaN`, the `NaN`
propagates through division, multiplication, subtraction and the clamp, and
the function still returns a string: lightness renders as `NaN` while chroma
and hue are formatted normally. -/
theorem C8_nan_percentage_propagates {s : String} {a b c : List Char} {L C H : ℚ}
    (hfind : findOklch (jsTrim s.data) = some (a, b, c))
    (ha : jsParseFloatL a = some L) (hb : jsParseFloatL b = some C)
    (hc : jsParseFloatL c = some H) :
    adjustOklchLightness s none
      = some (mkOklchOut ['N', 'a', 'N'] (fmt4 C) (fmt4 H)) := by
  rw [adjust_eq_of_find none hfind, ha, hb, hc]
  rfl

/-- Witness for C8: `oklch(0.7 0.15 250)` with a `NaN` percentage yields
`oklch(NaN 0.1500 250.0000)`. -/
theorem C8_witness :
    adjustOklchLightness "oklch(0.7 0.15 250)" none
      = some "oklch(NaN 0.1500 250.0000)" := by
  have h := C8_nan_percentage_propagates (s := "oklch(0.7 0.15 250)")
    (a := ['0', '.', '7']) (b := ['0', '.', '1', '5']) (c := ['2', '5', '0'])
    (L := 7 / 10) (C := 3 / 20) (H := 250)
    (by decide) (by decide) (by decide) (by decide)
  rw [h]
  decide

/-- **C9 counterexample**: the parser enforces no upper bounds: the input
`oklch(2 0.1 720)` is accepted with lightness `2 > 1` and hue `720 ≥ 360`,
and the function produces a (clamped) output rather than rejecting it. -/
theorem C9_counterexample_range_not_enforced :
    findOklch (jsTrim ("oklch(2 0.1 720)").data)
      = some (['2'], ['0', '.', '1'], ['7', '2', '0'])
    ∧ jsParseFloatL ['2'] = some 2
    ∧ jsParseFloatL ['7', '2', '0'] = some 720
    ∧ ¬ ((2 : ℚ) ≤ 1)
    ∧ ¬ ((720 : ℚ) < 360)
    ∧ adjustOklchLightness "oklch(2 0.1 720)" (some 0)
      = some "oklch(1.0000 0.1000 720.0000)" := by
  refine ⟨?_, ?_, ?_, ?_, ?_, ?_⟩ <;> decide

/-- **C9 amended**: what parsing does guarantee is non-negativity of all
three components (the accepted syntax has no sign); no upper bound on
lightness, chroma or hue is enforced at parse time. -/
theorem C9_amended_nonneg_components {t : List Char} {a b c : List Char} {L C H : ℚ}
    (hfind : findOklch t = some (a, b, c))
    (ha : jsParseFloatL a = some L) (hb : jsParseFloatL b = some C)
    (hc : jsParseFloatL c = some H) :
    0 ≤ L ∧ 0 ≤ C ∧ 0 ≤ H :=
  ⟨jsParseFloatL_nonneg ha, jsParseFloatL_nonneg hb, jsParseFloatL_nonneg hc⟩

/-- Witness for C9 (amended) on the parsed sample of `oklch(2 0.1 720)`. -/
theorem C9_witness : (0 : ℚ) ≤ 2 ∧ (0 : ℚ) ≤ 1 / 10 ∧ (0 : ℚ) ≤ 720 :=
  C9_amended_nonneg_components
    (t := ('o' :: 'k' :: 'l' :: 'c' :: 'h' :: '(' :: '2' :: ' ' :: '0' :: '.' :: '1' :: ' '
      :: '7' :: '2' :: '0' :: ')' :: []))
    (a := ['2']) (b := ['0', '.', '1']) (c := ['7', '2', '0'])
    (by decide) (by decide) (by decide) (by decide)

/-- **C10**: any looked-up string that merely contains a substring
`oklch(a b c)` with digit-and-dot components — whatever text comes before or
after, including a wrong-name prefix — produces a non-null result, because
the pattern is unanchored. -/
theorem C10_unanchored_substring_matches {a b c : List Char} (pre post : String)
    (p : JsNum) (ha : IsNumToken a) (hb : IsNumToken b) (hc : IsNumToken c) :
    ∃ out, adjustOklchLightness (pre ++ mkOklchText a b c ++ post) p = some out := by
  have hdata : (pre ++ mkOklchText a b c ++ post).data
      = pre.data ++ ((mkOklchText a b c).data ++ post.data) := by
    simp [String.data_append, List.append_assoc]
  have hmid_head : ∃ m0 ms, (mkOklchText a b c).data = m0 :: ms ∧ isWs m0 = false := by
    rw [data_mkOklchText]
    exact ⟨'o', _, rfl, by decide⟩
  have hmid_last : ∃ ms2 mlast, (mkOklchText a b c).data = ms2 ++ [mlast]
      ∧ isWs mlast = false := by
    rw [data_mkOklchText]
    refine ⟨oklchLit ++ (a ++ ' ' :: (b ++ ' ' :: c)), ')', ?_, by decide⟩
    simp [List.append_assoc]
  obtain ⟨u, v, htrim⟩ := jsTrim_decomp pre.data post.data hmid_head hmid_last
  have hmatch : (matchOklchAt ((mkOklchText a b c).data ++ v)).isSome = true := by
    rw [data_mkOklchText]
    have hre : oklchLit ++ (a ++ ' ' :: (b ++ ' ' :: (c ++ [')']))) ++ v
        = oklchLit ++ (a ++ ' ' :: (b ++ ' ' :: (c ++ ')' :: v))) := by
      simp [List.append_assoc]
    rw [hre, matchOklchAt_canonical v ha hb hc]
    rfl
  have hsome := findOklch_isSome_of_suffix u ((mkOklchText a b c).data ++ v) hmatch
  cases hf : findOklch (jsTrim (pre ++ mkOklchText a b c ++ post).data) with
  | none =>
    rw [hdata, htrim] at hf
    rw [← List.append_assoc] at hf
    rw [List.append_assoc] at hf
    rw [hf] at hsome
    exact absurd hsome (by simp)
  | some r =>
    obtain ⟨a2, b2, c2⟩ := r
    exact ⟨_, adjust_eq_of_find p hf⟩

/-- Witness for C10: the prefix `not-` does not prevent a match. -/
theorem C10_witness :
    ∃ out, adjustOklchLightness
        ("not-" ++ mkOklchText ['0', '.', '5'] ['0', '.', '1'] ['3', '0'] ++ "") (some 10)
      = some out :=
  C10_unanchored_substring_matches "not-" "" (some 10)
    ⟨by decide, by decide⟩ ⟨by decide, by decide⟩ ⟨by decide, by decide⟩
